import Mathlib

/-!
Shallow embedding of the incremental distance-scoring engine in
src/fuzzer/src/dyncfg/cfg.rs (struct ControlFlowGraph) together with the
pieces of its dependencies that the code exercises:

* petgraph DiGraphMap<BbId, Score>: an insertion-ordered adjacency map
  (IndexMap semantics).  Each node key owns a vector of (neighbor,
  direction) entries in insertion order; edge weights live in a separate
  insertion-ordered (src, dst) -> weight map.  add_edge on an existing
  edge only overwrites the weight; on a new edge it appends adjacency
  entries (an Outgoing entry on the source, an Incoming entry on the
  destination unless it is a self loop).
* petgraph Bfs: discovered set marked at enqueue time, FIFO queue.
  Note that cfg.rs builds the visitor with Reversed(&self.graph) but then
  steps it with &self.graph, so the traversal in propagate_score follows
  the FORWARD direction of the graph.  The embedding reproduces that.
* petgraph Dfs: discovered set marked at pop time, LIFO stack.
* math crate mean::harmonic over f64 followed by the cast `as u32`:
  len / sum of reciprocals, truncated toward zero.  The embedding
  computes the exact floor of the rational harmonic mean using natural
  number arithmetic; a zero element makes the f64 sum infinite and the
  result exactly 0, which the embedding reproduces.  (For every state
  arising in this development the aggregated values are all equal or
  contain 0, where the f64 computation is exact, so the exact floor and
  the f64 result agree.)

Rust u32 values are modelled as Nat; no arithmetic is ever performed on
node identifiers and the harmonic mean of u32 values below u32::MAX
never reaches u32::MAX, so no wraparound can occur.  Loops are modelled
with an explicit fuel argument; the fuel chosen at each call site is
proved sufficient (the loop result is fuel independent from that point
on), which is the termination argument of the source.
-/

namespace Parmesan

abbrev BbId := Nat
abbrev CmpId := Nat
abbrev CallSiteId := Nat
abbrev Edge := BbId × BbId
abbrev Score := Nat
abbrev FixedBytes := List (Nat × Nat)

def TARGET_SCORE : Score := 0

/-- u32::MAX, the reserved sentinel. -/
def UNDEF_SCORE : Score := 4294967295

/-! ### Insertion-ordered association lists (IndexMap semantics) -/

def alistLookup {α β : Type} [DecidableEq α] : List (α × β) → α → Option β
  | [], _ => none
  | (k, v) :: rest, a => if k = a then some v else alistLookup rest a

/-- Insert preserves the position of an existing key and appends a new key,
exactly like IndexMap::insert. -/
def alistInsert {α β : Type} [DecidableEq α] : List (α × β) → α → β → List (α × β)
  | [], a, b => [(a, b)]
  | (k, v) :: rest, a, b =>
      if k = a then (k, b) :: rest else (k, v) :: alistInsert rest a b

/-! ### petgraph DiGraphMap -/

/-- Adjacency entry direction: true = Outgoing, false = Incoming
(CompactDirection). -/
structure DiGraphMap where
  adj : List (BbId × List (BbId × Bool))
  edges : List (Edge × Score)
deriving DecidableEq

def DiGraphMap.empty : DiGraphMap := ⟨[], []⟩

/-- nodes.entry(n).or_insert(Vec::new()).push(e) -/
def adjPush : List (BbId × List (BbId × Bool)) → BbId → (BbId × Bool) →
    List (BbId × List (BbId × Bool))
  | [], n, e => [(n, [e])]
  | (k, l) :: rest, n, e =>
      if k = n then (k, l ++ [e]) :: rest else (k, l) :: adjPush rest n e

def DiGraphMap.containsEdge (g : DiGraphMap) (a b : BbId) : Bool :=
  (alistLookup g.edges (a, b)).isSome

def DiGraphMap.edgeWeight (g : DiGraphMap) (a b : BbId) : Option Score :=
  alistLookup g.edges (a, b)

/-- GraphMap::add_edge.  On an existing edge only the weight is replaced;
on a new edge adjacency entries are appended (no Incoming entry for a
self loop). -/
def DiGraphMap.addEdge (g : DiGraphMap) (a b : BbId) (w : Score) : DiGraphMap :=
  if g.containsEdge a b then
    { g with edges := alistInsert g.edges (a, b) w }
  else
    { adj :=
        let ad := adjPush g.adj a (b, true)
        if a = b then ad else adjPush ad b (a, false),
      edges := g.edges ++ [((a, b), w)] }

/-- neighbors_directed: entries of the node vector whose direction matches,
plus self loops (petgraph counts a self loop in both directions).
outgoing = true asks for successors, false for predecessors. -/
def DiGraphMap.neighborsDirected (g : DiGraphMap) (a : BbId) (outgoing : Bool) :
    List BbId :=
  match alistLookup g.adj a with
  | none => []
  | some l => (l.filter (fun e => e.2 == outgoing || e.1 == a)).map Prod.fst

/-! ### The control flow graph state -/

/-- TagSeg from angora_common::tag (sign, begin, end); `end` is a Lean
keyword so the fields carry a trailing underscore. -/
structure TagSeg where
  sign : Bool
  begin_ : Nat
  end_ : Nat

structure ControlFlowGraph where
  graph : DiGraphMap
  targets : List CmpId
  id_mapping : List (BbId × CmpId)
  solved_targets : List CmpId
  indirect_edges : List Edge
  callsite_edges : List (CallSiteId × List Edge)
  callsite_dominators : List (CallSiteId × List CmpId)
  dominator_cmps : List CmpId
  magic_bytes : List (Edge × FixedBytes)

/-- HashSet::insert on a duplicate-free list. -/
def insertSet (l : List Nat) (x : Nat) : List Nat :=
  if x ∈ l then l else l ++ [x]

def insertSetE (l : List Edge) (x : Edge) : List Edge :=
  if x ∈ l then l else l ++ [x]

def empty_new : ControlFlowGraph :=
  { graph := DiGraphMap.empty, targets := [], id_mapping := [],
    solved_targets := [], indirect_edges := [], callsite_edges := [],
    callsite_dominators := [], dominator_cmps := [], magic_bytes := [] }

/-- The constructor used by the unit tests in cfg.rs (test_new): given
targets and an id mapping, every other component empty. -/
def test_new (targets : List CmpId) (id_mapping : List (BbId × CmpId)) :
    ControlFlowGraph :=
  { graph := DiGraphMap.empty, targets := targets, id_mapping := id_mapping,
    solved_targets := [], indirect_edges := [], callsite_edges := [],
    callsite_dominators := [], dominator_cmps := [], magic_bytes := [] }

def get_cmp_from_bb (cfg : ControlFlowGraph) (bb : BbId) : Option CmpId :=
  if cfg.id_mapping ≠ [] then alistLookup cfg.id_mapping bb else none

def has_edge (cfg : ControlFlowGraph) (edge : Edge) : Bool :=
  cfg.graph.containsEdge edge.1 edge.2

def is_target (cfg : ControlFlowGraph) (cmp : CmpId) : Bool :=
  cmp ∈ cfg.targets || cmp ∈ cfg.solved_targets

def dominates_indirect_call (cfg : ControlFlowGraph) (cmp : CmpId) : Bool :=
  cmp ∈ cfg.dominator_cmps

def get_callsite_dominators (cfg : ControlFlowGraph) (cs : CallSiteId) :
    List CmpId :=
  (alistLookup cfg.callsite_dominators cs).getD []

def get_magic_bytes (cfg : ControlFlowGraph) (edge : Edge) : FixedBytes :=
  (alistLookup cfg.magic_bytes edge).getD []

/-! ### Scoring -/

/-- Exact floor of the harmonic mean n / (sum of 1/v) of a list of nonzero
naturals, computed as (n * P) / (sum of P / v) with P the product of the
values: every P / v is exact, so the Nat division yields the floor. -/
def harmonicFloor (vals : List Score) : Score :=
  ((vals.length * vals.prod)) / ((vals.map (fun v => vals.prod / v)).sum)

/-- score_harmonic_mean from cfg.rs: empty input or nothing left after
filtering UNDEF_SCORE gives UNDEF_SCORE; otherwise the f64 harmonic mean
cast to u32.  A zero value makes the reciprocal sum infinite and the
result exactly 0.  Note the source adds no 1 (the `TODO add 1 if cmp`
comment). -/
def score_harmonic_mean (ovals : List Score) : Score :=
  if ovals.length = 0 then UNDEF_SCORE
  else
    let vals := ovals.filter (fun v => v != UNDEF_SCORE)
    if vals = [] then UNDEF_SCORE
    else if 0 ∈ vals then 0
    else harmonicFloor vals

def aggregate_score (ovals : List Score) : Score :=
  score_harmonic_mean ovals

/-- _should_count_edge: a non-indirect edge always counts; an indirect edge
with recorded magic bytes counts unless some recorded offset is readable
in the input and the byte there differs (an offset beyond the end of the
input is skipped by the `if let Some` with no else); an indirect edge
without recorded magic bytes counts. -/
def should_count_edge (cfg : ControlFlowGraph) (edge : Edge) (inp : List Nat) :
    Bool :=
  if edge ∈ cfg.indirect_edges then
    match alistLookup cfg.magic_bytes edge with
    | some fixed =>
        fixed.all (fun p =>
          match inp.get? p.1 with
          | some b => b == p.2
          | none => true)
    | none => true
  else true

/-- The list of cached weights of the counted outgoing edges of bb, in
adjacency order, exactly as _score_for_cmp_inp collects them. -/
def counted_weights (cfg : ControlFlowGraph) (bb : BbId) (inp : List Nat) :
    List Score :=
  (cfg.graph.neighborsDirected bb true).filterMap (fun n =>
    if should_count_edge cfg (bb, n) inp then cfg.graph.edgeWeight bb n
    else none)

/-- _score_for_cmp_inp: an early return of TARGET_SCORE when the node maps
(through a nonempty id_mapping) to an active target, otherwise the
aggregate of the counted cached outgoing weights. -/
def score_for_cmp_inp_core (cfg : ControlFlowGraph) (bb : BbId)
    (inp : List Nat) : Score :=
  match get_cmp_from_bb cfg bb with
  | some cmp =>
      if cmp ∈ cfg.targets then TARGET_SCORE
      else aggregate_score (counted_weights cfg bb inp)
  | none => aggregate_score (counted_weights cfg bb inp)

/-- _score_for_cmp delegates to _score_for_cmp_inp with an empty input. -/
def score_for_cmp_core (cfg : ControlFlowGraph) (bb : BbId) : Score :=
  score_for_cmp_inp_core cfg bb []

/-- Public score_for_cmp (the debug logging of the wrapper is stripped). -/
def score_for_cmp (cfg : ControlFlowGraph) (cmp : BbId) : Score :=
  score_for_cmp_core cfg cmp

def score_for_cmp_inp (cfg : ControlFlowGraph) (cmp : BbId) (inp : List Nat) :
    Score :=
  score_for_cmp_inp_core cfg cmp inp

def has_score (cfg : ControlFlowGraph) (cmp : BbId) : Bool :=
  score_for_cmp_core cfg cmp != UNDEF_SCORE

/-! ### Propagation (petgraph Bfs stepped with the forward graph) -/

/-- One pass of Bfs::next neighbor processing: mark each not yet
discovered neighbor and push it at the back of the FIFO queue. -/
def bfsEnqueue (disc queue : List BbId) : List BbId → List BbId × List BbId
  | [] => (disc, queue)
  | n :: rest =>
      if n ∈ disc then bfsEnqueue disc queue rest
      else bfsEnqueue (disc ++ [n]) (queue ++ [n]) rest

/-- Fuel bound for the BFS of propagate_score: an overapproximation of
(number of distinct node ids mentioned in the adjacency structure) + 2. -/
def propFuel (g : DiGraphMap) : Nat :=
  g.adj.length + (g.adj.map (fun kv => kv.2.length)).sum + 2

/-- The while-let loop of propagate_score.  Each iteration pops the front
of the queue, enqueues its undiscovered forward neighbors (Bfs::next run
on the original, non-reversed graph), recomputes the score of the popped
node and overwrites the cached weight of every incoming edge with it.
The returned list records the visit order. -/
def propagateLoop : Nat → ControlFlowGraph → List BbId → List BbId →
    List BbId → ControlFlowGraph × List BbId
  | 0, cfg, _, _, acc => (cfg, acc.reverse)
  | _ + 1, cfg, [], _, acc => (cfg, acc.reverse)
  | fuel + 1, cfg, v :: rest, disc, acc =>
      let ns := cfg.graph.neighborsDirected v true
      let dq := bfsEnqueue disc rest ns
      let sc := score_for_cmp_core cfg v
      let preds := cfg.graph.neighborsDirected v false
      let g2 := preds.foldl (fun g p => g.addEdge p v sc) cfg.graph
      propagateLoop fuel { cfg with graph := g2 } dq.2 dq.1 (v :: acc)

/-- propagate_score: Bfs::new(Reversed(graph), bb) marks bb discovered and
enqueues it; the loop then steps with the forward graph. -/
def propagate_score (cfg : ControlFlowGraph) (bb : BbId) : ControlFlowGraph :=
  (propagateLoop (propFuel cfg.graph) cfg [bb] [bb] []).1

/-- The visit order of the propagation BFS (for the no-revisit property). -/
def propagate_visits (cfg : ControlFlowGraph) (bb : BbId) : List BbId :=
  (propagateLoop (propFuel cfg.graph) cfg [bb] [bb] []).2

/-! ### Graph mutation entry points -/

/-- handle_new_edge, including the pre-insertion score snapshots, the
short circuit when the source score is unchanged, the redundant second
insertion and the propagation. -/
def handle_new_edge (cfg : ControlFlowGraph) (edge : Edge) :
    ControlFlowGraph :=
  let src := edge.1
  let dst := edge.2
  let dst_score := score_for_cmp_core cfg dst
  let old_src_score := score_for_cmp_core cfg src
  let cfg1 := { cfg with graph := cfg.graph.addEdge src dst dst_score }
  let new_src_score := score_for_cmp_core cfg1 src
  if old_src_score = new_src_score then cfg1
  else
    let cfg2 := { cfg1 with graph := cfg1.graph.addEdge src dst dst_score }
    propagate_score cfg2 src

/-- add_edge returns whether the edge was previously absent and always
runs handle_new_edge. -/
def add_edge (cfg : ControlFlowGraph) (edge : Edge) :
    Bool × ControlFlowGraph :=
  (!(has_edge cfg edge), handle_new_edge cfg edge)

/-- remove_target: when the cmp is an active target, remove it, propagate
from it, then record it as solved (in that order). -/
def remove_target (cfg : ControlFlowGraph) (cmp : CmpId) : ControlFlowGraph :=
  if cmp ∈ cfg.targets then
    let cfg1 := { cfg with targets := cfg.targets.erase cmp }
    let cfg2 := propagate_score cfg1 cmp
    { cfg2 with solved_targets := insertSet cfg2.solved_targets cmp }
  else cfg

def set_edge_indirect (cfg : ControlFlowGraph) (edge : Edge)
    (callsite : CallSiteId) : ControlFlowGraph :=
  { cfg with
    indirect_edges := insertSetE cfg.indirect_edges edge,
    callsite_edges :=
      alistInsert cfg.callsite_edges callsite
        (insertSetE ((alistLookup cfg.callsite_edges callsite).getD []) edge) }

/-- The ascending list of byte offsets covered by the tainted ranges;
the source iterates a HashSet whose order is unspecified, and nothing
downstream depends on the order (the pairs are only conjoined). -/
def tagIndices (offsets : List TagSeg) : List Nat :=
  (List.range ((offsets.map (fun t => t.end_)).foldl max 0)).filter
    (fun i => offsets.any (fun t => t.begin_ ≤ i && i < t.end_))

/-- set_magic_bytes reads buf[i] for every covered offset i; in Rust an
offset at or past the end of buf panics (index out of bounds), modelled
as none. -/
def set_magic_bytes (cfg : ControlFlowGraph) (edge : Edge) (buf : List Nat)
    (offsets : List TagSeg) : Option ControlFlowGraph :=
  match (tagIndices offsets).mapM (fun i => (buf.get? i).map (fun b => (i, b))) with
  | some fixed =>
      some { cfg with magic_bytes := alistInsert cfg.magic_bytes edge fixed }
  | none => none

/-! ### Reachability query (petgraph Dfs) -/

/-- Fuel bound for the DFS: (distinct mentioned ids + 1) multiplied by
(total adjacency entries + 2), plus slack. -/
def dfsFuel (g : DiGraphMap) : Nat :=
  (g.adj.length + (g.adj.map (fun kv => kv.2.length)).sum + 1) *
    ((g.adj.map (fun kv => kv.2.length)).sum + 2) + 2

/-- The while-let loop of has_path_to_target over Dfs::next: pop the top
of the stack, skip it when already discovered, otherwise mark it, push
its undiscovered successors (last neighbor ends on top) and record the
visit. -/
def dfsLoop : Nat → DiGraphMap → List BbId → List BbId → List BbId →
    List BbId
  | 0, _, _, _, acc => acc.reverse
  | _ + 1, _, [], _, acc => acc.reverse
  | fuel + 1, g, v :: rest, disc, acc =>
      if v ∈ disc then dfsLoop fuel g rest disc acc
      else
        let ns := (g.neighborsDirected v true).filter
          (fun n => !(n ∈ (v :: disc) : Bool))
        dfsLoop fuel g (ns.reverse ++ rest) (v :: disc) (v :: acc)

/-- The full DFS visit sequence from a start node. -/
def dfs_visits (g : DiGraphMap) (s : BbId) : List BbId :=
  dfsLoop (dfsFuel g) g [s] [] []

/-- has_path_to_target returns true exactly when the DFS meets a node
whose raw id is in the ACTIVE target set (no id_mapping translation in
the source).  The source returns early at the first hit; the result
equals testing the full visit sequence. -/
def has_path_to_target (cfg : ControlFlowGraph) (target : CmpId) : Bool :=
  (dfs_visits cfg.graph target).any (fun v => v ∈ cfg.targets)

/-! ### Runtime event alphabet (for properties over arbitrary futures) -/

inductive Op where
  | addEdgeOp : Edge → Op
  | removeTargetOp : CmpId → Op
  | setEdgeIndirectOp : Edge → CallSiteId → Op
  | setMagicBytesOp : Edge → List Nat → List TagSeg → Op

/-- Apply one runtime event.  A set_magic_bytes call that would panic
aborts the process in Rust, so no later state exists; for the purpose of
properties quantifying over futures it is modelled as leaving the state
unchanged. -/
def applyOp (cfg : ControlFlowGraph) : Op → ControlFlowGraph
  | Op.addEdgeOp e => (add_edge cfg e).2
  | Op.removeTargetOp c => remove_target cfg c
  | Op.setEdgeIndirectOp e cs => set_edge_indirect cfg e cs
  | Op.setMagicBytesOp e buf offs => (set_magic_bytes cfg e buf offs).getD cfg

def applyOps (cfg : ControlFlowGraph) (ops : List Op) : ControlFlowGraph :=
  ops.foldl applyOp cfg

/-! ### Definitions used only by the proofs -/

/-- All node ids mentioned in an adjacency structure: each key followed
by the targets of its adjacency entries. -/
def mentionedList : List (BbId × List (BbId × Bool)) → List Nat
  | [] => []
  | (k, l) :: rest => k :: (l.map Prod.fst ++ mentionedList rest)

def mentionedIds (g : DiGraphMap) : Finset Nat :=
  (mentionedList g.adj).toFinset

def totalEntries (g : DiGraphMap) : Nat :=
  (g.adj.map (fun kv => kv.2.length)).sum

/-- The decreasing measure of the propagation BFS: undiscovered mentioned
nodes plus queue length. -/
def bmeasure (g : DiGraphMap) (q disc : List BbId) : Nat :=
  (mentionedIds g \ disc.toFinset).card + q.length

/-- The decreasing measure of the DFS of has_path_to_target. -/
def dmeasure (g : DiGraphMap) (stack disc : List BbId) : Nat :=
  (mentionedIds g \ disc.toFinset).card * (totalEntries g + 2) + stack.length

/-- One step along an outgoing adjacency entry. -/
def edgeStep (g : DiGraphMap) (a b : BbId) : Prop :=
  b ∈ g.neighborsDirected a true

/-- Reachability along outgoing edges of the graph. -/
def Reaches (g : DiGraphMap) : BbId → BbId → Prop :=
  Relation.ReflTransGen (edgeStep g)

/-- Every cached non-sentinel weight certifies a path from its
destination to an active target.  This holds in every state never
subjected to remove_target and is the key soundness invariant relating
the score cache to reachability. -/
def WeightsSound (cfg : ControlFlowGraph) : Prop :=
  ∀ a b w, cfg.graph.edgeWeight a b = some w → w ≠ UNDEF_SCORE →
    ∃ m, Reaches cfg.graph b m ∧ m ∈ cfg.targets

/-- The id mapping is compatible with the raw-id membership test that
has_path_to_target applies to visited nodes: any node mapping to an
active target is itself (as a raw id) in the target set.  The identity
mapping used by the loader satisfies this. -/
def MappingCompat (cfg : ControlFlowGraph) : Prop :=
  ∀ bb c, get_cmp_from_bb cfg bb = some c → c ∈ cfg.targets →
    bb ∈ cfg.targets

/-! ### Concrete states used by the claims -/

/-- The spec example: edges (10,20) then (20,30), target 30 mapped to
itself. -/
def exampleChain : ControlFlowGraph :=
  applyOps (test_new [30] [(30, 30)]) [Op.addEdgeOp (10, 20), Op.addEdgeOp (20, 30)]

/-- A three-edge chain 1 -> 2 -> 3 -> 100 toward the mapped target 100,
edges added closest to the start first. -/
def chainFour : ControlFlowGraph :=
  applyOps (test_new [100] [(100, 100)])
    [Op.addEdgeOp (1, 2), Op.addEdgeOp (2, 3), Op.addEdgeOp (3, 100)]

/-- Edges (1,100) and (2,1) added toward the active mapped target 100. -/
def preSolved : ControlFlowGraph :=
  applyOps (test_new [100] [(100, 100)])
    [Op.addEdgeOp (1, 100), Op.addEdgeOp (2, 1)]

/-- The same state after the target 100 has been solved. -/
def postSolved : ControlFlowGraph := remove_target preSolved 100

/-- A first and a second add_edge of the same pair (3,2) on postSolved. -/
def readdFirst : ControlFlowGraph := (add_edge postSolved (3, 2)).2

def readdSecond : ControlFlowGraph := (add_edge readdFirst (3, 2)).2

/-- An indirect edge (1,2) carrying magic bytes ((3, 0x41)). -/
def magicState : ControlFlowGraph :=
  (set_magic_bytes (set_edge_indirect (test_new [100] [(100, 100)]) (1, 2) 7)
      (1, 2) [0, 0, 0, 65] [⟨false, 3, 4⟩]).getD empty_new

end Parmesan

namespace Parmesan

/-! ### Library lemmas about the association lists and the graph store -/

theorem alistLookup_insert_self {α β : Type} [DecidableEq α]
    (l : List (α × β)) (k : α) (v : β) :
    alistLookup (alistInsert l k v) k = some v := by
  induction l with
  | nil => simp [alistInsert, alistLookup]
  | cons kv rest ih =>
      obtain ⟨k2, v2⟩ := kv
      by_cases h : k2 = k
      · subst h
        simp [alistInsert, alistLookup]
      · simp [alistInsert, alistLookup, h, ih]

theorem alistLookup_insert_isSome {α β : Type} [DecidableEq α]
    (l : List (α × β)) (k k2 : α) (v : β)
    (h : (alistLookup l k2).isSome = true) :
    (alistLookup (alistInsert l k v) k2).isSome = true := by
  induction l with
  | nil => simp [alistLookup] at h
  | cons kv rest ih =>
      obtain ⟨k3, v3⟩ := kv
      by_cases h3 : k3 = k
      · subst h3
        by_cases h2 : k3 = k2
        · subst h2
          simp [alistInsert, alistLookup]
        · simp only [alistLookup, if_neg h2] at h
          simp [alistInsert, alistLookup, h2, h]
      · by_cases h2 : k3 = k2
        · subst h2
          simp [alistInsert, alistLookup, h3]
        · simp only [alistLookup, if_neg h2] at h
          simp [alistInsert, alistLookup, h3, h2, ih h]

theorem alistLookup_append_isSome {α β : Type} [DecidableEq α]
    (l m : List (α × β)) (k : α)
    (h : (alistLookup l k).isSome = true) :
    (alistLookup (l ++ m) k).isSome = true := by
  induction l with
  | nil => simp [alistLookup] at h
  | cons kv rest ih =>
      obtain ⟨k2, v2⟩ := kv
      by_cases h2 : k2 = k
      · simp [alistLookup, h2]
      · simp only [alistLookup, if_neg h2] at h
        simp [alistLookup, h2, ih h]

theorem alistLookup_append_none {α β : Type} [DecidableEq α]
    (l m : List (α × β)) (k : α) (h : alistLookup l k = none) :
    alistLookup (l ++ m) k = alistLookup m k := by
  induction l with
  | nil => simp
  | cons kv rest ih =>
      obtain ⟨k2, v2⟩ := kv
      by_cases h2 : k2 = k
      · subst h2
        simp [alistLookup] at h
      · simp only [alistLookup, if_neg h2] at h
        simp only [List.cons_append, alistLookup, if_neg h2]
        exact ih h

/-- The edge map produced by add_edge, in closed form. -/
theorem addEdge_edges (g : DiGraphMap) (a b : BbId) (w : Score) :
    (g.addEdge a b w).edges =
      if g.containsEdge a b = true then alistInsert g.edges (a, b) w
      else g.edges ++ [((a, b), w)] := by
  unfold DiGraphMap.addEdge
  by_cases h : g.containsEdge a b = true <;> simp [h]

theorem containsEdge_not_lookup (g : DiGraphMap) (a b : BbId)
    (h : ¬ g.containsEdge a b = true) :
    alistLookup g.edges (a, b) = none := by
  unfold DiGraphMap.containsEdge at h
  cases hl : alistLookup g.edges (a, b) with
  | none => rfl
  | some x => rw [hl] at h; simp at h

theorem containsEdge_addEdge_self (g : DiGraphMap) (a b : BbId) (w : Score) :
    (g.addEdge a b w).containsEdge a b = true := by
  unfold DiGraphMap.containsEdge
  rw [addEdge_edges]
  by_cases h : g.containsEdge a b = true
  · rw [if_pos h, alistLookup_insert_self]
    rfl
  · rw [if_neg h, alistLookup_append_none _ _ _ (containsEdge_not_lookup _ _ _ h)]
    simp [alistLookup]

theorem containsEdge_addEdge_mono (g : DiGraphMap) (x y a b : BbId) (w : Score)
    (h : g.containsEdge x y = true) :
    (g.addEdge a b w).containsEdge x y = true := by
  unfold DiGraphMap.containsEdge at h ⊢
  rw [addEdge_edges]
  by_cases hc : g.containsEdge a b = true
  · rw [if_pos hc]
    exact alistLookup_insert_isSome _ _ _ _ h
  · rw [if_neg hc]
    exact alistLookup_append_isSome _ _ _ h

theorem containsEdge_foldl_addEdge (v : BbId) (sc : Score) (ps : List BbId)
    (g : DiGraphMap) (x y : BbId) (h : g.containsEdge x y = true) :
    (ps.foldl (fun g p => g.addEdge p v sc) g).containsEdge x y = true := by
  induction ps generalizing g with
  | nil => simpa using h
  | cons p rest ih =>
      simp only [List.foldl_cons]
      exact ih _ (containsEdge_addEdge_mono _ _ _ _ _ _ h)

theorem containsEdge_propagateLoop (fuel : Nat) (cfg : ControlFlowGraph)
    (q d a : List BbId) (x y : BbId)
    (h : cfg.graph.containsEdge x y = true) :
    (propagateLoop fuel cfg q d a).1.graph.containsEdge x y = true := by
  induction fuel generalizing cfg q d a with
  | zero => simpa [propagateLoop] using h
  | succ n ih =>
      cases q with
      | nil => simpa [propagateLoop] using h
      | cons v rest =>
          simp only [propagateLoop]
          exact ih _ _ _ _ (containsEdge_foldl_addEdge _ _ _ _ _ _ h)

/-- Every field of the state except the graph passes through the
propagation loop unchanged. -/
theorem propagateLoop_fields (fuel : Nat) (cfg : ControlFlowGraph)
    (q d a : List BbId) :
    (propagateLoop fuel cfg q d a).1.targets = cfg.targets ∧
    (propagateLoop fuel cfg q d a).1.id_mapping = cfg.id_mapping ∧
    (propagateLoop fuel cfg q d a).1.solved_targets = cfg.solved_targets ∧
    (propagateLoop fuel cfg q d a).1.indirect_edges = cfg.indirect_edges ∧
    (propagateLoop fuel cfg q d a).1.magic_bytes = cfg.magic_bytes := by
  induction fuel generalizing cfg q d a with
  | zero => simp [propagateLoop]
  | succ n ih =>
      cases q with
      | nil => simp [propagateLoop]
      | cons v rest =>
          simp only [propagateLoop]
          exact ih _ _ _ _

theorem handle_new_edge_fields (cfg : ControlFlowGraph) (e : Edge) :
    (handle_new_edge cfg e).targets = cfg.targets ∧
    (handle_new_edge cfg e).id_mapping = cfg.id_mapping ∧
    (handle_new_edge cfg e).solved_targets = cfg.solved_targets ∧
    (handle_new_edge cfg e).indirect_edges = cfg.indirect_edges ∧
    (handle_new_edge cfg e).magic_bytes = cfg.magic_bytes := by
  simp only [handle_new_edge]
  split
  · exact ⟨rfl, rfl, rfl, rfl, rfl⟩
  · exact propagateLoop_fields _ _ _ _ _

theorem has_edge_handle_new_edge (cfg : ControlFlowGraph) (e : Edge) :
    has_edge (handle_new_edge cfg e) e = true := by
  simp only [handle_new_edge, has_edge]
  split
  · exact containsEdge_addEdge_self _ _ _ _
  · exact containsEdge_propagateLoop _ _ _ _ _ _ _
      (containsEdge_addEdge_self _ _ _ _)

theorem insertSet_mem_self (l : List Nat) (x : Nat) : x ∈ insertSet l x := by
  unfold insertSet
  split
  · assumption
  · simp

theorem insertSet_mem_mono (l : List Nat) (x y : Nat) (h : y ∈ l) :
    y ∈ insertSet l x := by
  unfold insertSet
  split
  · exact h
  · simp [h]

/-- No runtime event ever removes a cmp from the solved set. -/
theorem solved_mem_applyOp (cfg : ControlFlowGraph) (op : Op) (c : CmpId)
    (h : c ∈ cfg.solved_targets) : c ∈ (applyOp cfg op).solved_targets := by
  cases op with
  | addEdgeOp e =>
      show c ∈ (handle_new_edge cfg e).solved_targets
      rw [(handle_new_edge_fields cfg e).2.2.1]
      exact h
  | removeTargetOp d =>
      show c ∈ (remove_target cfg d).solved_targets
      unfold remove_target
      split
      · show c ∈ insertSet
          (propagate_score { cfg with targets := cfg.targets.erase d } d).solved_targets d
        refine insertSet_mem_mono _ _ _ ?_
        have hf := (propagateLoop_fields
          (propFuel ({ cfg with targets := cfg.targets.erase d } :
            ControlFlowGraph).graph)
          { cfg with targets := cfg.targets.erase d } [d] [d] []).2.2.1
        show c ∈ (propagateLoop _ _ _ _ _).1.solved_targets
        rw [hf]
        exact h
      · exact h
  | setEdgeIndirectOp e cs => exact h
  | setMagicBytesOp e buf offs =>
      show c ∈ ((set_magic_bytes cfg e buf offs).getD cfg).solved_targets
      unfold set_magic_bytes
      split
      · exact h
      · exact h

theorem solved_mem_applyOps (cfg : ControlFlowGraph) (ops : List Op)
    (c : CmpId) (h : c ∈ cfg.solved_targets) :
    c ∈ (applyOps cfg ops).solved_targets := by
  induction ops generalizing cfg with
  | nil => simpa [applyOps] using h
  | cons op rest ih =>
      simp only [applyOps, List.foldl_cons]
      exact ih _ (solved_mem_applyOp _ _ _ h)

/-! ### Mentioned node ids: the finite universe of the two traversals -/

theorem key_mem_mentionedList (adj : List (BbId × List (BbId × Bool)))
    (v : BbId) (l : List (BbId × Bool)) (h : alistLookup adj v = some l) :
    v ∈ mentionedList adj := by
  induction adj with
  | nil => simp [alistLookup] at h
  | cons kv rest ih =>
      obtain ⟨k, l2⟩ := kv
      by_cases h2 : k = v
      · subst h2
        simp [mentionedList]
      · simp only [alistLookup, if_neg h2] at h
        simp [mentionedList, ih h]

theorem entry_mem_mentionedList (adj : List (BbId × List (BbId × Bool)))
    (v n : BbId) (l : List (BbId × Bool)) (h : alistLookup adj v = some l)
    (hn : n ∈ l.map Prod.fst) : n ∈ mentionedList adj := by
  induction adj with
  | nil => simp [alistLookup] at h
  | cons kv rest ih =>
      obtain ⟨k, l2⟩ := kv
      by_cases h2 : k = v
      · subst h2
        have hl2 : l2 = l := by simpa [alistLookup] using h
        subst hl2
        simp only [mentionedList, List.mem_cons, List.mem_append]
        exact Or.inr (Or.inl hn)
      · simp only [alistLookup, if_neg h2] at h
        simp [mentionedList, ih h]

theorem neighbor_mem_mentioned (g : DiGraphMap) (v n : BbId) (dir : Bool)
    (h : n ∈ g.neighborsDirected v dir) : n ∈ mentionedIds g := by
  unfold DiGraphMap.neighborsDirected at h
  cases hl : alistLookup g.adj v with
  | none => rw [hl] at h; simp at h
  | some l =>
      rw [hl] at h
      simp only [List.mem_map, List.mem_filter] at h
      obtain ⟨e, ⟨he, _⟩, hfst⟩ := h
      unfold mentionedIds
      rw [List.mem_toFinset]
      exact entry_mem_mentionedList _ _ _ _ hl
        (hfst ▸ List.mem_map_of_mem Prod.fst he)

theorem neighbors_ne_nil_key (g : DiGraphMap) (v : BbId) (dir : Bool)
    (h : g.neighborsDirected v dir ≠ []) : v ∈ mentionedIds g := by
  unfold DiGraphMap.neighborsDirected at h
  cases hl : alistLookup g.adj v with
  | none => rw [hl] at h; simp at h
  | some l =>
      unfold mentionedIds
      rw [List.mem_toFinset]
      exact key_mem_mentionedList _ _ _ hl

theorem mem_mentionedList_adjPush (adj : List (BbId × List (BbId × Bool)))
    (n : BbId) (e : BbId × Bool) (x : Nat) :
    x ∈ mentionedList (adjPush adj n e) ↔
      x ∈ mentionedList adj ∨ x = n ∨ x = e.1 := by
  induction adj with
  | nil => simp [adjPush, mentionedList]
  | cons kv rest ih =>
      obtain ⟨k, l⟩ := kv
      by_cases h : k = n
      · subst h
        simp only [adjPush, if_pos rfl, mentionedList, List.map_append,
          List.mem_cons, List.mem_append, List.map_cons, List.map_nil,
          List.mem_singleton]
        tauto
      · simp only [adjPush, if_neg h, mentionedList, List.mem_cons,
          List.mem_append, ih]
        tauto

theorem mentioned_addEdge_subset (g : DiGraphMap) (a b : BbId) (w : Score)
    (x : Nat) (h : x ∈ mentionedIds (g.addEdge a b w)) :
    x ∈ mentionedIds g ∨ x = a ∨ x = b := by
  unfold DiGraphMap.addEdge at h
  by_cases hc : g.containsEdge a b = true
  · rw [if_pos hc] at h
    exact Or.inl h
  · rw [if_neg hc] at h
    unfold mentionedIds at h ⊢
    rw [List.mem_toFinset] at h
    rw [List.mem_toFinset]
    by_cases hab : a = b
    · rw [if_pos hab] at h
      rw [mem_mentionedList_adjPush] at h
      tauto
    · rw [if_neg hab] at h
      rw [mem_mentionedList_adjPush, mem_mentionedList_adjPush] at h
      tauto

theorem mentioned_addEdge_superset (g : DiGraphMap) (a b : BbId) (w : Score)
    (x : Nat) (h : x ∈ mentionedIds g) :
    x ∈ mentionedIds (g.addEdge a b w) := by
  unfold DiGraphMap.addEdge
  by_cases hc : g.containsEdge a b = true
  · rw [if_pos hc]
    exact h
  · rw [if_neg hc]
    unfold mentionedIds at h ⊢
    rw [List.mem_toFinset] at h
    rw [List.mem_toFinset]
    by_cases hab : a = b
    · rw [if_pos hab, mem_mentionedList_adjPush]
      exact Or.inl h
    · rw [if_neg hab, mem_mentionedList_adjPush, mem_mentionedList_adjPush]
      exact Or.inl (Or.inl h)

/-- Folding the incoming-edge weight updates of one BFS visit over the
graph never extends the mentioned-id universe, because every predecessor
and (when there is one) the visited node are already mentioned. -/
theorem mentioned_foldl_subset (v : BbId) (sc : Score) (ps : List BbId)
    (g G : DiGraphMap)
    (hg : ∀ x, x ∈ mentionedIds g → x ∈ mentionedIds G)
    (hps : ∀ p ∈ ps, p ∈ mentionedIds G)
    (hv : ps ≠ [] → v ∈ mentionedIds G) :
    ∀ x, x ∈ mentionedIds (ps.foldl (fun g p => g.addEdge p v sc) g) →
      x ∈ mentionedIds G := by
  induction ps generalizing g with
  | nil => exact hg
  | cons p rest ih =>
      intro x hx
      simp only [List.foldl_cons] at hx
      refine ih (g.addEdge p v sc) ?_ (fun q hq => hps q (List.mem_cons_of_mem _ hq))
        (fun _ => hv (by simp)) x hx
      intro y hy
      rcases mentioned_addEdge_subset _ _ _ _ _ hy with hy | rfl | rfl
      · exact hg _ hy
      · exact hps _ (List.mem_cons_self _ _)
      · exact hv (by simp)

theorem mentioned_propStep_subset (cfg : ControlFlowGraph) (v : BbId)
    (sc : Score) (x : Nat)
    (h : x ∈ mentionedIds ((cfg.graph.neighborsDirected v false).foldl
      (fun g p => g.addEdge p v sc) cfg.graph)) :
    x ∈ mentionedIds cfg.graph := by
  refine mentioned_foldl_subset v sc _ _ _ (fun _ h => h) ?_ ?_ x h
  · exact fun p hp => neighbor_mem_mentioned _ _ _ _ hp
  · exact fun hne => neighbors_ne_nil_key _ _ _ hne

/-- The enqueue pass appends the same sublist of fresh nodes to both the
discovered set and the queue. -/
theorem bfsEnqueue_spec (ns : List BbId) :
    ∀ (disc q : List BbId), ∃ t, bfsEnqueue disc q ns = (disc ++ t, q ++ t) ∧
      t.Nodup ∧ ∀ x ∈ t, x ∉ disc ∧ x ∈ ns := by
  induction ns with
  | nil =>
      intro disc q
      exact ⟨[], by simp [bfsEnqueue], List.nodup_nil, by simp⟩
  | cons n rest ih =>
      intro disc q
      by_cases h : n ∈ disc
      · obtain ⟨t, heq, hnd, hmem⟩ := ih disc q
        refine ⟨t, ?_, hnd, ?_⟩
        · simpa [bfsEnqueue, h] using heq
        · exact fun x hx => ⟨(hmem x hx).1, List.mem_cons_of_mem _ (hmem x hx).2⟩
      · obtain ⟨t, heq, hnd, hmem⟩ := ih (disc ++ [n]) (q ++ [n])
        refine ⟨n :: t, ?_, ?_, ?_⟩
        · simp only [bfsEnqueue, if_neg h]
          rw [heq]
          simp
        · refine List.nodup_cons.mpr ⟨fun hmemn => ?_, hnd⟩
          exact (hmem n hmemn).1 (by simp)
        · intro x hx
          rcases List.mem_cons.mp hx with rfl | hx2
          · exact ⟨h, List.mem_cons_self _ _⟩
          · exact ⟨fun hd => (hmem x hx2).1 (by simp [hd]),
              List.mem_cons_of_mem _ (hmem x hx2).2⟩

theorem bmeasure_step (cfg : ControlFlowGraph) (v : BbId)
    (rest disc : List BbId) :
    bmeasure
      ((cfg.graph.neighborsDirected v false).foldl
        (fun g p => g.addEdge p v (score_for_cmp_core cfg v)) cfg.graph)
      (bfsEnqueue disc rest (cfg.graph.neighborsDirected v true)).2
      (bfsEnqueue disc rest (cfg.graph.neighborsDirected v true)).1 <
    bmeasure cfg.graph (v :: rest) disc := by
  obtain ⟨t, heq, hnd, hmem⟩ :=
    bfsEnqueue_spec (cfg.graph.neighborsDirected v true) disc rest
  rw [heq]
  unfold bmeasure
  have hsub : mentionedIds ((cfg.graph.neighborsDirected v false).foldl
      (fun g p => g.addEdge p v (score_for_cmp_core cfg v)) cfg.graph) ⊆
      mentionedIds cfg.graph :=
    fun x hx => mentioned_propStep_subset cfg v _ x hx
  have htsub : t.toFinset ⊆ mentionedIds cfg.graph \ disc.toFinset := by
    intro x hx
    rw [List.mem_toFinset] at hx
    rw [Finset.mem_sdiff, List.mem_toFinset]
    exact ⟨neighbor_mem_mentioned _ _ _ _ (hmem x hx).2, (hmem x hx).1⟩
  have hsplit : mentionedIds cfg.graph \ (disc ++ t).toFinset =
      (mentionedIds cfg.graph \ disc.toFinset) \ t.toFinset := by
    apply Finset.ext
    intro x
    simp only [Finset.mem_sdiff, List.toFinset_append, Finset.mem_union,
      List.mem_toFinset]
    tauto
  have hcard1 : (mentionedIds ((cfg.graph.neighborsDirected v false).foldl
      (fun g p => g.addEdge p v (score_for_cmp_core cfg v)) cfg.graph) \
        (disc ++ t).toFinset).card ≤
      (mentionedIds cfg.graph \ (disc ++ t).toFinset).card :=
    Finset.card_le_card (Finset.sdiff_subset_sdiff hsub (Finset.Subset.refl _))
  have hcard2 : (mentionedIds cfg.graph \ (disc ++ t).toFinset).card =
      (mentionedIds cfg.graph \ disc.toFinset).card - t.toFinset.card := by
    rw [hsplit, Finset.card_sdiff htsub]
  have hcard3 : t.toFinset.card = t.length := List.toFinset_card_of_nodup hnd
  have hcard4 : t.toFinset.card ≤
      (mentionedIds cfg.graph \ disc.toFinset).card :=
    Finset.card_le_card htsub
  simp only [List.length_append, List.length_cons]
  omega

theorem mentionedList_length (adj : List (BbId × List (BbId × Bool))) :
    (mentionedList adj).length =
      adj.length + (adj.map (fun kv => kv.2.length)).sum := by
  induction adj with
  | nil => simp [mentionedList]
  | cons kv rest ih =>
      obtain ⟨k, l⟩ := kv
      simp only [mentionedList, List.length_cons, List.length_append,
        List.length_map, List.map_cons, List.sum_cons, ih]
      omega

theorem bmeasure_init_le (g : DiGraphMap) (bb : BbId) :
    bmeasure g [bb] [bb] ≤ propFuel g := by
  unfold bmeasure propFuel
  have h1 : (mentionedIds g).card ≤
      g.adj.length + (g.adj.map (fun kv => kv.2.length)).sum := by
    unfold mentionedIds
    calc (mentionedList g.adj).toFinset.card
        ≤ (mentionedList g.adj).length := List.toFinset_card_le _
      _ = _ := mentionedList_length g.adj
  have h2 : (mentionedIds g \ [bb].toFinset).card ≤ (mentionedIds g).card :=
    Finset.card_le_card Finset.sdiff_subset
  simp only [List.length_cons, List.length_nil]
  omega

/-- With enough fuel, one more unit of fuel does not change the result of
the propagation loop: the loop reaches its queue-empty exit. -/
theorem propagateLoop_fuel_succ (fuel : Nat) :
    ∀ (cfg : ControlFlowGraph) (q disc acc : List BbId),
      bmeasure cfg.graph q disc ≤ fuel →
      propagateLoop (fuel + 1) cfg q disc acc =
        propagateLoop fuel cfg q disc acc := by
  induction fuel with
  | zero =>
      intro cfg q disc acc h
      cases q with
      | nil => rfl
      | cons v r =>
          exfalso
          unfold bmeasure at h
          simp only [List.length_cons] at h
          omega
  | succ n ih =>
      intro cfg q disc acc h
      cases q with
      | nil => rfl
      | cons v rest =>
          show propagateLoop (n + 1 + 1) cfg (v :: rest) disc acc = _
          simp only [propagateLoop]
          refine ih _ _ _ _ ?_
          have hstep := bmeasure_step cfg v rest disc
          have hcur : bmeasure cfg.graph (v :: rest) disc ≤ n + 1 := h
          show bmeasure ((cfg.graph.neighborsDirected v false).foldl
              (fun g p => g.addEdge p v (score_for_cmp_core cfg v)) cfg.graph)
            (bfsEnqueue disc rest (cfg.graph.neighborsDirected v true)).2
            (bfsEnqueue disc rest (cfg.graph.neighborsDirected v true)).1 ≤ n
          omega

theorem propagateLoop_fuel_add (fuel extra : Nat) (cfg : ControlFlowGraph)
    (q disc acc : List BbId) (h : bmeasure cfg.graph q disc ≤ fuel) :
    propagateLoop (fuel + extra) cfg q disc acc =
      propagateLoop fuel cfg q disc acc := by
  induction extra with
  | zero => rfl
  | succ m ih =>
      have h2 : bmeasure cfg.graph q disc ≤ fuel + m :=
        le_trans h (Nat.le_add_right _ _)
      calc propagateLoop (fuel + (m + 1)) cfg q disc acc
          = propagateLoop (fuel + m + 1) cfg q disc acc := rfl
        _ = propagateLoop (fuel + m) cfg q disc acc :=
            propagateLoop_fuel_succ _ _ _ _ _ h2
        _ = _ := ih

/-- The BFS of propagate_score never revisits a dequeued node. -/
theorem propagateLoop_visits_nodup (fuel : Nat) :
    ∀ (cfg : ControlFlowGraph) (q disc acc : List BbId),
      (acc.reverse ++ q).Nodup → (∀ x, x ∈ acc ∨ x ∈ q → x ∈ disc) →
      (propagateLoop fuel cfg q disc acc).2.Nodup := by
  induction fuel with
  | zero =>
      intro cfg q disc acc h1 _
      exact h1.of_append_left
  | succ n ih =>
      intro cfg q disc acc h1 h2
      cases q with
      | nil => exact h1.of_append_left
      | cons v rest =>
          obtain ⟨t, heq, hndt, hmemt⟩ :=
            bfsEnqueue_spec (cfg.graph.neighborsDirected v true) disc rest
          simp only [propagateLoop]
          rw [heq]
          apply ih
          · have hshape : (v :: acc).reverse ++ (rest ++ t) =
                (acc.reverse ++ (v :: rest)) ++ t := by
              simp
            rw [hshape, List.nodup_append]
            refine ⟨h1, hndt, ?_⟩
            intro x hx hxt
            have hxd : x ∈ disc := by
              rcases List.mem_append.mp hx with hx2 | hx2
              · exact h2 x (Or.inl (by simpa using hx2))
              · exact h2 x (Or.inr hx2)
            exact (hmemt x hxt).1 hxd
          · intro x hx
            rcases hx with hx | hx
            · rcases List.mem_cons.mp hx with rfl | hx2
              · exact List.mem_append.mpr (Or.inl (h2 x (Or.inr (by simp))))
              · exact List.mem_append.mpr (Or.inl (h2 x (Or.inl hx2)))
            · rcases List.mem_append.mp hx with hx2 | hx2
              · exact List.mem_append.mpr
                  (Or.inl (h2 x (Or.inr (List.mem_cons_of_mem _ hx2))))
              · exact List.mem_append.mpr (Or.inr hx2)

theorem alistLookup_mem {α β : Type} [DecidableEq α]
    (l : List (α × β)) (k : α) (v : β) (h : alistLookup l k = some v) :
    (k, v) ∈ l := by
  induction l with
  | nil => simp [alistLookup] at h
  | cons kv rest ih =>
      obtain ⟨k2, v2⟩ := kv
      by_cases h2 : k2 = k
      · subst h2
        have : v2 = v := by simpa [alistLookup] using h
        subst this
        exact List.mem_cons_self _ _
      · simp only [alistLookup, if_neg h2] at h
        exact List.mem_cons_of_mem _ (ih h)

theorem neighbors_length_le (g : DiGraphMap) (v : BbId) (dir : Bool) :
    (g.neighborsDirected v dir).length ≤ totalEntries g := by
  unfold DiGraphMap.neighborsDirected totalEntries
  cases hl : alistLookup g.adj v with
  | none => simp
  | some l =>
      have hm : l.length ∈ g.adj.map (fun kv => kv.2.length) := by
        have := alistLookup_mem _ _ _ hl
        exact List.mem_map.mpr ⟨(v, l), this, rfl⟩
      calc ((l.filter (fun e => e.2 == dir || e.1 == v)).map Prod.fst).length
          ≤ l.length := by
            rw [List.length_map]
            exact List.length_filter_le _ _
        _ ≤ (g.adj.map (fun kv => kv.2.length)).sum :=
            List.single_le_sum (fun x _ => Nat.zero_le x) _ hm

theorem dmeasure_skip (g : DiGraphMap) (v : BbId) (rest disc : List BbId) :
    dmeasure g rest disc < dmeasure g (v :: rest) disc := by
  unfold dmeasure
  simp only [List.length_cons]
  omega

theorem dmeasure_newvisit (g : DiGraphMap) (v : BbId) (rest disc : List BbId)
    (hv : v ∉ disc) :
    dmeasure g
      (((g.neighborsDirected v true).filter
          (fun n => !(n ∈ (v :: disc) : Bool))).reverse ++ rest)
      (v :: disc) <
    dmeasure g (v :: rest) disc := by
  by_cases hm : v ∈ mentionedIds g
  · have hvMd : v ∈ mentionedIds g \ disc.toFinset :=
      Finset.mem_sdiff.mpr ⟨hm, by simpa using hv⟩
    have h1 : mentionedIds g \ (v :: disc).toFinset =
        (mentionedIds g \ disc.toFinset).erase v := by
      apply Finset.ext
      intro x
      simp only [Finset.mem_sdiff, List.toFinset_cons, Finset.mem_insert,
        Finset.mem_erase, List.mem_toFinset]
      tauto
    have h2 : (mentionedIds g \ (v :: disc).toFinset).card =
        (mentionedIds g \ disc.toFinset).card - 1 := by
      rw [h1, Finset.card_erase_of_mem hvMd]
    have h3 : 1 ≤ (mentionedIds g \ disc.toFinset).card :=
      Finset.card_pos.mpr ⟨v, hvMd⟩
    have h4 : (((g.neighborsDirected v true).filter
        (fun n => !(n ∈ (v :: disc) : Bool))).reverse).length ≤ totalEntries g := by
      rw [List.length_reverse]
      exact le_trans (List.length_filter_le _ _) (neighbors_length_le g v true)
    unfold dmeasure
    rw [h2]
    simp only [List.length_append, List.length_cons]
    obtain ⟨c2, hc2⟩ : ∃ c2, (mentionedIds g \ disc.toFinset).card = c2 + 1 :=
      ⟨(mentionedIds g \ disc.toFinset).card - 1, by omega⟩
    rw [hc2]
    simp only [Nat.add_sub_cancel]
    rw [Nat.add_mul, Nat.one_mul]
    omega
  · have hns : g.neighborsDirected v true = [] := by
      by_contra hne
      exact hm (neighbors_ne_nil_key g v true hne)
    have h1 : mentionedIds g \ (v :: disc).toFinset =
        mentionedIds g \ disc.toFinset := by
      apply Finset.ext
      intro x
      simp only [Finset.mem_sdiff, List.toFinset_cons, Finset.mem_insert,
        List.mem_toFinset]
      constructor
      · rintro ⟨hx, hx2⟩
        exact ⟨hx, fun hd => hx2 (Or.inr hd)⟩
      · rintro ⟨hx, hx2⟩
        refine ⟨hx, ?_⟩
        rintro (rfl | hd)
        · exact hm hx
        · exact hx2 hd
    unfold dmeasure
    rw [hns, h1]
    simp only [List.filter_nil, List.reverse_nil, List.nil_append,
      List.length_cons]
    omega

theorem dfsLoop_fuel_succ (fuel : Nat) :
    ∀ (g : DiGraphMap) (stack disc acc : List BbId),
      dmeasure g stack disc ≤ fuel →
      dfsLoop (fuel + 1) g stack disc acc = dfsLoop fuel g stack disc acc := by
  induction fuel with
  | zero =>
      intro g stack disc acc h
      cases stack with
      | nil => rfl
      | cons v r =>
          exfalso
          unfold dmeasure at h
          simp only [List.length_cons] at h
          omega
  | succ n ih =>
      intro g stack disc acc h
      cases stack with
      | nil => rfl
      | cons v rest =>
          by_cases hv : v ∈ disc
          · show dfsLoop (n + 1 + 1) g (v :: rest) disc acc = _
            simp only [dfsLoop, if_pos hv]
            refine ih _ _ _ _ ?_
            have := dmeasure_skip g v rest disc
            omega
          · show dfsLoop (n + 1 + 1) g (v :: rest) disc acc = _
            simp only [dfsLoop, if_neg hv]
            refine ih _ _ _ _ ?_
            have := dmeasure_newvisit g v rest disc hv
            omega

theorem dfsLoop_fuel_add (fuel extra : Nat) (g : DiGraphMap)
    (stack disc acc : List BbId) (h : dmeasure g stack disc ≤ fuel) :
    dfsLoop (fuel + extra) g stack disc acc = dfsLoop fuel g stack disc acc := by
  induction extra with
  | zero => rfl
  | succ m ih =>
      have h2 : dmeasure g stack disc ≤ fuel + m :=
        le_trans h (Nat.le_add_right _ _)
      calc dfsLoop (fuel + (m + 1)) g stack disc acc
          = dfsLoop (fuel + m + 1) g stack disc acc := rfl
        _ = dfsLoop (fuel + m) g stack disc acc :=
            dfsLoop_fuel_succ _ _ _ _ _ h2
        _ = _ := ih

theorem dmeasure_init_le (g : DiGraphMap) (s : BbId) :
    dmeasure g [s] [] ≤ dfsFuel g := by
  unfold dmeasure dfsFuel
  have h1 : (mentionedIds g).card ≤
      g.adj.length + (g.adj.map (fun kv => kv.2.length)).sum := by
    unfold mentionedIds
    calc (mentionedList g.adj).toFinset.card
        ≤ (mentionedList g.adj).length := List.toFinset_card_le _
      _ = _ := mentionedList_length g.adj
  have h2 : mentionedIds g \ ([] : List BbId).toFinset = mentionedIds g := by
    simp
  rw [h2]
  have h3 : (mentionedIds g).card * (totalEntries g + 2) ≤
      (g.adj.length + (g.adj.map (fun kv => kv.2.length)).sum) *
        (totalEntries g + 2) :=
    Nat.mul_le_mul_right _ h1
  have h4 : (g.adj.length + (g.adj.map (fun kv => kv.2.length)).sum + 1) *
      ((g.adj.map (fun kv => kv.2.length)).sum + 2) =
      (g.adj.length + (g.adj.map (fun kv => kv.2.length)).sum) *
        ((g.adj.map (fun kv => kv.2.length)).sum + 2) +
        ((g.adj.map (fun kv => kv.2.length)).sum + 2) := by ring
  unfold totalEntries at h3 ⊢
  simp only [List.length_cons, List.length_nil]
  omega

/-- The DFS of has_path_to_target never records a node twice. -/
theorem dfsLoop_visits_nodup (fuel : Nat) :
    ∀ (g : DiGraphMap) (stack disc acc : List BbId),
      acc.Nodup → (∀ x ∈ acc, x ∈ disc) →
      (dfsLoop fuel g stack disc acc).Nodup := by
  induction fuel with
  | zero =>
      intro g stack disc acc h1 _
      exact List.nodup_reverse.mpr h1
  | succ n ih =>
      intro g stack disc acc h1 h2
      cases stack with
      | nil => exact List.nodup_reverse.mpr h1
      | cons v rest =>
          by_cases hv : v ∈ disc
          · simp only [dfsLoop, if_pos hv]
            exact ih _ _ _ _ h1 h2
          · simp only [dfsLoop, if_neg hv]
            refine ih _ _ _ _ ?_ ?_
            · exact List.nodup_cons.mpr ⟨fun hva => hv (h2 v hva), h1⟩
            · intro x hx
              rcases List.mem_cons.mp hx with rfl | hx2
              · exact List.mem_cons_self _ _
              · exact List.mem_cons_of_mem _ (h2 x hx2)

/-! ### Claim C9 -/

/-- C9: the propagation BFS and the reachability DFS both terminate on
every graph, cyclic or not: the fuel supplied at their call sites is
sufficient (adding any further fuel leaves the result unchanged, i.e.
each loop reaches its queue-empty or stack-empty exit), and neither
traversal ever revisits a node it has dequeued or popped-and-marked. -/
theorem claim_C9_traversals_terminate_without_revisit
    (cfg : ControlFlowGraph) (bb : BbId) (g : DiGraphMap) (s : BbId)
    (extra : Nat) :
    propagateLoop (propFuel cfg.graph + extra) cfg [bb] [bb] [] =
      propagateLoop (propFuel cfg.graph) cfg [bb] [bb] [] ∧
    (propagate_visits cfg bb).Nodup ∧
    dfsLoop (dfsFuel g + extra) g [s] [] [] = dfsLoop (dfsFuel g) g [s] [] [] ∧
    (dfs_visits g s).Nodup := by
  refine ⟨propagateLoop_fuel_add _ _ _ _ _ _ (bmeasure_init_le _ _), ?_, ?_, ?_⟩
  · refine propagateLoop_visits_nodup _ _ _ _ _ (by simp) ?_
    intro x hx
    rcases hx with hx | hx
    · simp at hx
    · exact hx
  · exact dfsLoop_fuel_add _ _ _ _ _ _ (dmeasure_init_le _ _)
  · exact dfsLoop_visits_nodup _ _ _ _ _ List.nodup_nil (by simp)

/-- C1 (code bug): after the add_edge calls building the chain
1 -> 2 -> 3 -> 100 with active target 100, the cached weight of edge
(1,2) is still UNDEF_SCORE although the recomputed static score of its
destination 2 is 0: propagate_score builds its visitor over the reversed
graph but steps it with the forward graph, so node 1 (two hops backward
from the changed node 3) is never repaired, contradicting the claimed
invariant. -/
theorem claim_C1_cache_invariant_fails_on_chain :
    chainFour.graph.edgeWeight 1 2 = some UNDEF_SCORE ∧
    score_for_cmp chainFour 2 = 0 ∧
    (0 : Score) ≠ UNDEF_SCORE := by decide

/-! ### Claim C2 -/

/-- C2 (counterexample): on the spec example (edges (10,20),(20,30),
target set containing 30), score_for_cmp 20 is 0, not 1 as the claim
states. -/
theorem claim_C2_counterexample :
    score_for_cmp exampleChain 20 = 0 ∧ score_for_cmp exampleChain 20 ≠ 1 := by
  decide

/-- C2 (amended): score_harmonic_mean applies no final +1, and a zero
among the counted weights drives the harmonic mean to exactly 0, so the
example yields score 0 for 30, 20 and 10; the truncated harmonic mean of
(1,3) is 1, not 2. -/
theorem claim_C2_no_plus_one :
    score_for_cmp exampleChain 30 = 0 ∧
    score_for_cmp exampleChain 20 = 0 ∧
    score_for_cmp exampleChain 10 = 0 ∧
    score_harmonic_mean [1, 3] = 1 := by decide

/-! ### Claim C3 -/

/-- C3 (counterexample): in the exampleChain state the node 20 is not an
active target in any sense (it has no id_mapping entry, and 20 is not in
the target set), yet score_for_cmp 20 = 0, refuting the claim that 0 is
returned only while the target is active. -/
theorem claim_C3_counterexample :
    score_for_cmp exampleChain 20 = 0 ∧
    get_cmp_from_bb exampleChain 20 = none ∧
    (20 ∈ exampleChain.targets → False) := by decide

/-- C3 (amended): a node that maps through the id mapping to an active
target always scores TARGET_SCORE = 0; the converse direction of the
original claim fails (see the counterexample), since stale zero-valued
cached weights also produce a 0 score for non-target nodes. -/
theorem claim_C3_active_target_scores_zero
    (cfg : ControlFlowGraph) (bb : BbId) (c : CmpId)
    (h : get_cmp_from_bb cfg bb = some c) (hc : c ∈ cfg.targets) :
    score_for_cmp cfg bb = TARGET_SCORE := by
  unfold score_for_cmp score_for_cmp_core score_for_cmp_inp_core
  rw [h]
  simp [hc]

/-- C3 witness: the target node 30 of exampleChain maps to itself and
scores 0. -/
theorem claim_C3_witness :
    get_cmp_from_bb exampleChain 30 = some 30 ∧
    30 ∈ exampleChain.targets ∧
    score_for_cmp exampleChain 30 = TARGET_SCORE := by
  refine ⟨by decide, by decide, ?_⟩
  exact claim_C3_active_target_scores_zero exampleChain 30 30 (by decide) (by decide)

/-! ### Claim C4 -/

/-- C4 (counterexample): the edge (1,2) is indirect with recorded magic
bytes ((3, 0x41)), yet _should_count_edge counts it both for the empty
input and for the two-byte input (9,9), although both are shorter than
4 bytes: an unreadable offset is skipped, not treated as non-matching. -/
theorem claim_C4_counterexample :
    alistLookup magicState.magic_bytes (1, 2) = some [(3, 65)] ∧
    ((1, 2) ∈ magicState.indirect_edges) ∧
    should_count_edge magicState (1, 2) [] = true ∧
    should_count_edge magicState (1, 2) [9, 9] = true := by decide

/-- C4 (amended): an indirect edge with recorded magic bytes counts for
an input precisely when every recorded (offset, byte) pair whose offset
is readable in the input matches; pairs whose offset lies beyond the end
of the input are ignored rather than excluding the edge. -/
theorem claim_C4_gating_characterization
    (cfg : ControlFlowGraph) (e : Edge) (inp : List Nat) :
    should_count_edge cfg e inp = true ↔
      (e ∉ cfg.indirect_edges ∨
       alistLookup cfg.magic_bytes e = none ∨
       ∀ fixed, alistLookup cfg.magic_bytes e = some fixed →
         ∀ p ∈ fixed, ∀ b, inp.get? p.1 = some b → b = p.2) := by
  unfold should_count_edge
  by_cases hmem : e ∈ cfg.indirect_edges
  · simp only [if_pos hmem]
    cases hmb : alistLookup cfg.magic_bytes e with
    | none => simp [hmem]
    | some fixed =>
        simp only [hmem, not_true_eq_false, false_or, reduceCtorEq, List.all_eq_true]
        constructor
        · intro h
          intro fixed2 hfix p hp b hb
          cases hfix
          have := h p hp
          rw [hb] at this
          simpa using this
        · intro h p hp
          have := h fixed rfl p hp
          cases hg : inp.get? p.1 with
          | none => simp
          | some b => simpa using this b hg
  · simp [hmem]

/-- C4 witness: a four-byte input whose byte at offset 3 equals 0x41
counts the gated edge. -/
theorem claim_C4_witness :
    should_count_edge magicState (1, 2) [9, 9, 9, 65] = true :=
  (claim_C4_gating_characterization magicState (1, 2) [9, 9, 9, 65]).mpr
    (by decide)

/-! ### Claim C5 -/

/-- C5 (code bug): set_magic_bytes with a tainted range reaching past the
end of the input buffer indexes out of bounds (buf[i] with i at or past
buf.len() panics in Rust, modelled as none), aborting mid-campaign
instead of treating the entry as non-matching; the in-range call on the
same shape of arguments succeeds. -/
theorem claim_C5_set_magic_bytes_panics :
    (set_magic_bytes empty_new (1, 2) [] [⟨false, 0, 1⟩]).isSome = false ∧
    (set_magic_bytes empty_new (1, 2) [7] [⟨false, 0, 1⟩]).isSome = true := by
  decide

/-! ### Claim C7 (counterexample part) -/

/-- C7 (counterexample): after solving target 100 in preSolved, node 2
keeps a stale zero cached weight, so score_for_cmp 2 = 0 differs from
UNDEF_SCORE while has_path_to_target 2 is false (the DFS only tests the
active target set, now empty). -/
theorem claim_C7_counterexample :
    score_for_cmp postSolved 2 = 0 ∧
    score_for_cmp postSolved 2 ≠ UNDEF_SCORE ∧
    has_path_to_target postSolved 2 = false := by decide

/-! ### Claim C8 (counterexample part) -/

/-- C8 (counterexample): adding the absent edge (3,2) to postSolved
returns true and caches weight 0 for it; immediately re-adding the same
pair returns false but overwrites that cached weight with the
destination score recomputed meanwhile (UNDEF_SCORE), so the second call
does not leave all cached weights identical. -/
theorem claim_C8_counterexample :
    (add_edge postSolved (3, 2)).1 = true ∧
    (add_edge readdFirst (3, 2)).1 = false ∧
    readdFirst.graph.edgeWeight 3 2 = some 0 ∧
    readdSecond.graph.edgeWeight 3 2 = some UNDEF_SCORE ∧
    (0 : Score) ≠ UNDEF_SCORE := by decide

/-! ### Claim C8 (amended theorem) -/

/-- C8 (amended): add_edge returns true exactly when the edge was not
previously present, and an immediate second call with the same pair
returns false; the cached-weight preservation part of the original claim
fails (see the counterexample), because the second call overwrites the
cached weight with the freshly recomputed destination score. -/
theorem claim_C8_add_edge_return_protocol (cfg : ControlFlowGraph) (e : Edge) :
    (add_edge cfg e).1 = !(has_edge cfg e) ∧
    (add_edge (add_edge cfg e).2 e).1 = false := by
  refine ⟨rfl, ?_⟩
  show (!(has_edge (handle_new_edge cfg e) e)) = false
  rw [has_edge_handle_new_edge]
  rfl

/-! ### Claim C6 -/

/-- C6: removing an active target deactivates it, permanently records it
as solved (is_target stays true before the call, after it, and after any
further sequence of runtime events), and its score afterwards is the
harmonic-mean aggregate of the counted cached weights of its successors
(UNDEF_SCORE when that list is empty) rather than 0. -/
theorem claim_C6_solved_target_permanence
    (cfg : ControlFlowGraph) (n : Nat)
    (hmap : get_cmp_from_bb cfg n = some n)
    (hact : n ∈ cfg.targets) (hnd : cfg.targets.Nodup) :
    is_target cfg n = true ∧
    n ∉ (remove_target cfg n).targets ∧
    n ∈ (remove_target cfg n).solved_targets ∧
    is_target (remove_target cfg n) n = true ∧
    (∀ ops : List Op, is_target (applyOps (remove_target cfg n) ops) n = true) ∧
    score_for_cmp (remove_target cfg n) n =
      score_harmonic_mean (counted_weights (remove_target cfg n) n []) := by
  have hrt : remove_target cfg n =
      { propagate_score { cfg with targets := cfg.targets.erase n } n with
          solved_targets :=
            insertSet (propagate_score
              { cfg with targets := cfg.targets.erase n } n).solved_targets n } := by
    unfold remove_target
    rw [if_pos hact]
  have ht : (remove_target cfg n).targets = cfg.targets.erase n := by
    rw [hrt]
    exact (propagateLoop_fields _ _ [n] [n] []).1
  have hid : (remove_target cfg n).id_mapping = cfg.id_mapping := by
    rw [hrt]
    exact (propagateLoop_fields _ _ [n] [n] []).2.1
  have hnot : n ∉ (remove_target cfg n).targets := by
    rw [ht]
    intro hmem
    exact ((hnd.mem_erase_iff).mp hmem).1 rfl
  have hs : n ∈ (remove_target cfg n).solved_targets := by
    rw [hrt]
    exact insertSet_mem_self _ _
  have hmap2 : get_cmp_from_bb (remove_target cfg n) n = some n := by
    unfold get_cmp_from_bb at hmap ⊢
    rw [hid]
    exact hmap
  refine ⟨by simp [is_target, hact], hnot, hs, by simp [is_target, hs], ?_, ?_⟩
  · intro ops
    have := solved_mem_applyOps (remove_target cfg n) ops n hs
    simp [is_target, this]
  · unfold score_for_cmp score_for_cmp_core score_for_cmp_inp_core
    simp only [hmap2]
    rw [if_neg hnot]
    rfl

/-- C6 witness: solving target 100 of the concrete preSolved state. -/
theorem claim_C6_witness :
    is_target (remove_target preSolved 100) 100 = true ∧
    score_for_cmp (remove_target preSolved 100) 100 =
      score_harmonic_mean (counted_weights (remove_target preSolved 100) 100 []) :=
  ⟨(claim_C6_solved_target_permanence preSolved 100 (by decide) (by decide)
      (by decide)).2.2.2.1,
   (claim_C6_solved_target_permanence preSolved 100 (by decide) (by decide)
      (by decide)).2.2.2.2.2⟩

/-! ### Claim C10 -/

/-- C10: the static score is literally the per-input score on the empty
byte sequence, and with an empty input every edge counts, since no
recorded magic-byte offset can be read from an empty input. -/
theorem claim_C10_static_score_is_empty_input_score
    (cfg : ControlFlowGraph) (bb : BbId) :
    score_for_cmp cfg bb = score_for_cmp_inp cfg bb [] ∧
    ∀ e : Edge, should_count_edge cfg e [] = true := by
  refine ⟨rfl, ?_⟩
  intro e
  unfold should_count_edge
  by_cases hmem : e ∈ cfg.indirect_edges
  · simp only [if_pos hmem]
    cases hmb : alistLookup cfg.magic_bytes e with
    | none => rfl
    | some fixed => simp [List.all_eq_true]
  · simp [hmem]

/-! ### Claim C7: completeness of the DFS and the cache soundness
invariant -/

/-- The fueled DFS, run to completion from a consistent intermediate
state, visits every stack element and every discovered node, and its
visit set is closed under outgoing edges. -/
theorem dfsLoop_complete (fuel : Nat) :
    ∀ (g : DiGraphMap) (stack disc acc : List BbId),
      dmeasure g stack disc ≤ fuel →
      (∀ x, x ∈ disc ↔ x ∈ acc) →
      (∀ u ∈ disc, ∀ n ∈ g.neighborsDirected u true, n ∈ disc ∨ n ∈ stack) →
      (∀ s2 ∈ stack, s2 ∈ dfsLoop fuel g stack disc acc) ∧
      (∀ u ∈ disc, u ∈ dfsLoop fuel g stack disc acc) ∧
      (∀ u ∈ dfsLoop fuel g stack disc acc,
        ∀ n ∈ g.neighborsDirected u true, n ∈ dfsLoop fuel g stack disc acc) := by
  induction fuel with
  | zero =>
      intro g stack disc acc hm hda hcl
      cases stack with
      | nil =>
          refine ⟨by simp, ?_, ?_⟩
          · intro u hu
            show u ∈ acc.reverse
            rw [List.mem_reverse]
            exact (hda u).mp hu
          · intro u hu n hn
            have hu2 : u ∈ disc := (hda u).mpr (List.mem_reverse.mp hu)
            rcases hcl u hu2 n hn with hd | hd
            · show n ∈ acc.reverse
              rw [List.mem_reverse]
              exact (hda n).mp hd
            · simp at hd
      | cons v r =>
          exfalso
          unfold dmeasure at hm
          simp only [List.length_cons] at hm
          omega
  | succ m ih =>
      intro g stack disc acc hm hda hcl
      cases stack with
      | nil =>
          refine ⟨by simp, ?_, ?_⟩
          · intro u hu
            show u ∈ acc.reverse
            rw [List.mem_reverse]
            exact (hda u).mp hu
          · intro u hu n hn
            have hu2 : u ∈ disc := (hda u).mpr (List.mem_reverse.mp hu)
            rcases hcl u hu2 n hn with hd | hd
            · show n ∈ acc.reverse
              rw [List.mem_reverse]
              exact (hda n).mp hd
            · simp at hd
      | cons v rest =>
          by_cases hv : v ∈ disc
          · have hm2 : dmeasure g rest disc ≤ m := by
              have := dmeasure_skip g v rest disc
              omega
            have hcl2 : ∀ u ∈ disc, ∀ n ∈ g.neighborsDirected u true,
                n ∈ disc ∨ n ∈ rest := by
              intro u hu n hn
              rcases hcl u hu n hn with hd | hd
              · exact Or.inl hd
              · rcases List.mem_cons.mp hd with rfl | hd2
                · exact Or.inl hv
                · exact Or.inr hd2
            obtain ⟨hst, hdi, hclo⟩ := ih g rest disc acc hm2 hda hcl2
            refine ⟨?_, ?_, ?_⟩
            · intro s2 hs2
              simp only [dfsLoop, if_pos hv]
              rcases List.mem_cons.mp hs2 with rfl | hs3
              · exact hdi s2 hv
              · exact hst s2 hs3
            · intro u hu
              simp only [dfsLoop, if_pos hv]
              exact hdi u hu
            · intro u hu n hn
              simp only [dfsLoop, if_pos hv] at hu ⊢
              exact hclo u hu n hn
          · have hm2 : dmeasure g
                (((g.neighborsDirected v true).filter
                  (fun n => !(n ∈ (v :: disc) : Bool))).reverse ++ rest)
                (v :: disc) ≤ m := by
              have := dmeasure_newvisit g v rest disc hv
              omega
            have hda2 : ∀ x, x ∈ (v :: disc) ↔ x ∈ (v :: acc) := by
              intro x
              simp only [List.mem_cons]
              constructor
              · rintro (rfl | hx)
                · exact Or.inl rfl
                · exact Or.inr ((hda x).mp hx)
              · rintro (rfl | hx)
                · exact Or.inl rfl
                · exact Or.inr ((hda x).mpr hx)
            have hcl2 : ∀ u ∈ (v :: disc), ∀ n ∈ g.neighborsDirected u true,
                n ∈ (v :: disc) ∨ n ∈
                  (((g.neighborsDirected v true).filter
                    (fun n => !(n ∈ (v :: disc) : Bool))).reverse ++ rest) := by
              intro u hu n hn
              rcases List.mem_cons.mp hu with rfl | hu2
              · by_cases hnd : n ∈ (u :: disc)
                · exact Or.inl hnd
                · refine Or.inr (List.mem_append.mpr (Or.inl ?_))
                  rw [List.mem_reverse, List.mem_filter]
                  exact ⟨hn, by simpa using hnd⟩
              · rcases hcl u hu2 n hn with hd | hd
                · exact Or.inl (List.mem_cons_of_mem _ hd)
                · rcases List.mem_cons.mp hd with rfl | hd2
                  · exact Or.inl (List.mem_cons_self _ _)
                  · exact Or.inr (List.mem_append.mpr (Or.inr hd2))
            obtain ⟨hst, hdi, hclo⟩ := ih g _ _ _ hm2 hda2 hcl2
            refine ⟨?_, ?_, ?_⟩
            · intro s2 hs2
              simp only [dfsLoop, if_neg hv]
              rcases List.mem_cons.mp hs2 with rfl | hs3
              · exact hdi s2 (List.mem_cons_self _ _)
              · exact hst s2 (List.mem_append.mpr (Or.inr hs3))
            · intro u hu
              simp only [dfsLoop, if_neg hv]
              exact hdi u (List.mem_cons_of_mem _ hu)
            · intro u hu n hn
              simp only [dfsLoop, if_neg hv] at hu ⊢
              exact hclo u hu n hn

/-- Every node reachable from the start appears in the DFS visit list. -/
theorem dfs_visits_complete (g : DiGraphMap) (s m : BbId)
    (h : Reaches g s m) : m ∈ dfs_visits g s := by
  obtain ⟨hstack, hdisc, hclosed⟩ :=
    dfsLoop_complete (dfsFuel g) g [s] [] [] (dmeasure_init_le g s)
      (by simp) (by simp)
  have hs : s ∈ dfs_visits g s := hstack s (by simp)
  induction h with
  | refl => exact hs
  | tail _ hbc ih => exact hclosed _ ih _ hbc

theorem has_path_of_reaches (cfg : ControlFlowGraph) (n m : BbId)
    (hr : Reaches cfg.graph n m) (hm : m ∈ cfg.targets) :
    has_path_to_target cfg n = true := by
  unfold has_path_to_target
  rw [List.any_eq_true]
  exact ⟨m, dfs_visits_complete _ _ _ hr, by simpa using hm⟩

/-- A defined harmonic-mean aggregate needs a defined input value. -/
theorem score_harmonic_mean_ne_undef (ovals : List Score)
    (h : score_harmonic_mean ovals ≠ UNDEF_SCORE) :
    ∃ s ∈ ovals, s ≠ UNDEF_SCORE := by
  simp only [score_harmonic_mean] at h
  split at h
  · exact absurd rfl h
  · split at h
    · exact absurd rfl h
    · rename_i hne
      obtain ⟨s, hs⟩ := List.exists_mem_of_ne_nil _ hne
      exact ⟨s, List.mem_of_mem_filter hs, by simpa using List.of_mem_filter hs⟩

theorem counted_weights_mem (cfg : ControlFlowGraph) (bb : BbId)
    (inp : List Nat) (s : Score) (h : s ∈ counted_weights cfg bb inp) :
    ∃ nb ∈ cfg.graph.neighborsDirected bb true,
      cfg.graph.edgeWeight bb nb = some s := by
  unfold counted_weights at h
  rw [List.mem_filterMap] at h
  obtain ⟨nb, hnb, hval⟩ := h
  refine ⟨nb, hnb, ?_⟩
  by_cases hc : should_count_edge cfg (bb, nb) inp = true
  · rwa [if_pos hc] at hval
  · rw [if_neg hc] at hval
    simp at hval

theorem alistLookup_insert_ne {α β : Type} [DecidableEq α]
    (l : List (α × β)) (k k2 : α) (v : β) (h : k2 ≠ k) :
    alistLookup (alistInsert l k v) k2 = alistLookup l k2 := by
  induction l with
  | nil =>
      show (if k = k2 then some v else alistLookup [] k2) = alistLookup [] k2
      rw [if_neg (fun hh => h hh.symm)]
  | cons kv rest ih =>
      obtain ⟨k3, v3⟩ := kv
      by_cases h3 : k3 = k
      · subst h3
        have hred : alistInsert ((k3, v3) :: rest) k3 v = (k3, v) :: rest := by
          simp [alistInsert]
        rw [hred]
        simp only [alistLookup, if_neg (show ¬ k3 = k2 from fun hh => h hh.symm)]
      · simp only [alistInsert, if_neg h3, alistLookup]
        by_cases h4 : k3 = k2
        · simp [h4]
        · simp [h4, ih]

theorem alistLookup_append_left {α β : Type} [DecidableEq α]
    (l m : List (α × β)) (k : α) (h : (alistLookup l k).isSome = true) :
    alistLookup (l ++ m) k = alistLookup l k := by
  induction l with
  | nil => simp [alistLookup] at h
  | cons kv rest ih =>
      obtain ⟨k2, v2⟩ := kv
      by_cases h2 : k2 = k
      · simp [alistLookup, h2]
      · simp only [alistLookup, if_neg h2] at h
        simp only [List.cons_append, alistLookup, if_neg h2]
        exact ih h

/-- The weight of any edge after add_edge, in closed form. -/
theorem edgeWeight_addEdge (g : DiGraphMap) (a b x y : BbId) (w : Score) :
    (g.addEdge a b w).edgeWeight x y =
      if (x, y) = (a, b) then some w else g.edgeWeight x y := by
  unfold DiGraphMap.edgeWeight
  rw [addEdge_edges]
  by_cases hc : g.containsEdge a b = true
  · rw [if_pos hc]
    by_cases hxy : ((x, y) : Edge) = (a, b)
    · rw [if_pos hxy, hxy]
      exact alistLookup_insert_self _ _ _
    · rw [if_neg hxy, alistLookup_insert_ne _ _ _ _ hxy]
  · rw [if_neg hc]
    by_cases hxy : ((x, y) : Edge) = (a, b)
    · rw [if_pos hxy, hxy,
        alistLookup_append_none _ _ _ (containsEdge_not_lookup _ _ _ hc)]
      show (if ((a, b) : Edge) = (a, b) then some w else alistLookup [] (a, b)) =
        some w
      rw [if_pos rfl]
    · rw [if_neg hxy]
      cases hl : alistLookup g.edges (x, y) with
      | some v2 =>
          rw [alistLookup_append_left _ _ _ (by simp [hl])]
          exact hl
      | none =>
          rw [alistLookup_append_none _ _ _ hl]
          show (if ((a, b) : Edge) = (x, y) then some w else
            alistLookup [] (x, y)) = none
          rw [if_neg (fun hh => hxy hh.symm)]
          rfl

/-- The adjacency structure after add_edge, in closed form. -/
theorem addEdge_adj (g : DiGraphMap) (a b : BbId) (w : Score) :
    (g.addEdge a b w).adj =
      if g.containsEdge a b = true then g.adj
      else if a = b then adjPush g.adj a (b, true)
      else adjPush (adjPush g.adj a (b, true)) b (a, false) := by
  unfold DiGraphMap.addEdge
  by_cases h : g.containsEdge a b = true <;> simp [h]

theorem adjPush_lookup_extends (adj : List (BbId × List (BbId × Bool)))
    (n2 : BbId) (e : BbId × Bool) (v : BbId) (l : List (BbId × Bool))
    (h : alistLookup adj v = some l) :
    ∃ l2, alistLookup (adjPush adj n2 e) v = some (l ++ l2) := by
  induction adj with
  | nil => simp [alistLookup] at h
  | cons kv rest ih =>
      obtain ⟨k, l3⟩ := kv
      by_cases hk : k = n2
      · subst hk
        by_cases hv : k = v
        · subst hv
          have hl3 : l3 = l := by simpa [alistLookup] using h
          subst hl3
          exact ⟨[e], by simp [adjPush, alistLookup]⟩
        · refine ⟨[], ?_⟩
          simp only [alistLookup, if_neg hv] at h
          simp only [adjPush, if_pos rfl, alistLookup, if_neg hv]
          simpa using h
      · by_cases hv : k = v
        · subst hv
          have hl3 : l3 = l := by simpa [alistLookup] using h
          subst hl3
          exact ⟨[], by simp [adjPush, if_neg hk, alistLookup]⟩
        · simp only [alistLookup, if_neg hv] at h
          obtain ⟨l2, hl2⟩ := ih h
          exact ⟨l2, by simp [adjPush, if_neg hk, alistLookup, if_neg hv, hl2]⟩

theorem neighborsDirected_lookup (g : DiGraphMap) (v : BbId) (dir : Bool)
    (l : List (BbId × Bool)) (h : alistLookup g.adj v = some l) :
    g.neighborsDirected v dir =
      (l.filter (fun e => e.2 == dir || e.1 == v)).map Prod.fst := by
  unfold DiGraphMap.neighborsDirected
  rw [h]

theorem neighborsDirected_addEdge_mono (g : DiGraphMap) (a b v n : BbId)
    (w : Score) (dir : Bool) (h : n ∈ g.neighborsDirected v dir) :
    n ∈ (g.addEdge a b w).neighborsDirected v dir := by
  cases hl : alistLookup g.adj v with
  | none =>
      unfold DiGraphMap.neighborsDirected at h
      rw [hl] at h
      simp at h
  | some l =>
      rw [neighborsDirected_lookup g v dir l hl] at h
      by_cases hc : g.containsEdge a b = true
      · have hadj : alistLookup (g.addEdge a b w).adj v = some l := by
          rw [addEdge_adj, if_pos hc]
          exact hl
        rw [neighborsDirected_lookup _ v dir l hadj]
        exact h
      · by_cases hab : a = b
        · obtain ⟨l2, hl2⟩ := adjPush_lookup_extends g.adj a (b, true) v l hl
          have hadj : alistLookup (g.addEdge a b w).adj v = some (l ++ l2) := by
            rw [addEdge_adj, if_neg hc, if_pos hab]
            exact hl2
          rw [neighborsDirected_lookup _ v dir _ hadj]
          simp only [List.filter_append, List.map_append, List.mem_append]
          exact Or.inl h
        · obtain ⟨l2, hl2⟩ := adjPush_lookup_extends g.adj a (b, true) v l hl
          obtain ⟨l3, hl3⟩ :=
            adjPush_lookup_extends (adjPush g.adj a (b, true)) b (a, false) v
              (l ++ l2) hl2
          have hadj : alistLookup (g.addEdge a b w).adj v =
              some (l ++ l2 ++ l3) := by
            rw [addEdge_adj, if_neg hc, if_neg hab]
            exact hl3
          rw [neighborsDirected_lookup _ v dir _ hadj]
          simp only [List.filter_append, List.map_append, List.mem_append]
          exact Or.inl (Or.inl h)

theorem reaches_addEdge_mono (g : DiGraphMap) (a b : BbId) (w : Score)
    (x y : BbId) (h : Reaches g x y) : Reaches (g.addEdge a b w) x y := by
  induction h with
  | refl => exact Relation.ReflTransGen.refl
  | tail _ hbc ih =>
      exact Relation.ReflTransGen.tail ih
        (neighborsDirected_addEdge_mono g a b _ _ w true hbc)

theorem reaches_foldl_mono (v : BbId) (sc : Score) (ps : List BbId)
    (g : DiGraphMap) (x y : BbId) (h : Reaches g x y) :
    Reaches (ps.foldl (fun g p => g.addEdge p v sc) g) x y := by
  induction ps generalizing g with
  | nil => exact h
  | cons p rest ih =>
      simp only [List.foldl_cons]
      exact ih _ (reaches_addEdge_mono _ _ _ _ _ _ h)

theorem aggregate_reaches (cfg : ControlFlowGraph) (v : BbId)
    (hW : WeightsSound cfg)
    (h : aggregate_score (counted_weights cfg v []) ≠ UNDEF_SCORE) :
    ∃ m, Reaches cfg.graph v m ∧ m ∈ cfg.targets := by
  obtain ⟨s, hs, hsne⟩ := score_harmonic_mean_ne_undef _ h
  obtain ⟨nb, hnb, hw⟩ := counted_weights_mem cfg v [] s hs
  obtain ⟨m, hr, hm⟩ := hW v nb s hw hsne
  exact ⟨m, Relation.ReflTransGen.head (show edgeStep cfg.graph v nb from hnb) hr, hm⟩

/-- A defined static score certifies a path to an active target, given
the cache soundness invariant and a compatible id mapping. -/
theorem score_reaches (cfg : ControlFlowGraph) (v : BbId)
    (hW : WeightsSound cfg) (hM : MappingCompat cfg)
    (h : score_for_cmp_core cfg v ≠ UNDEF_SCORE) :
    ∃ m, Reaches cfg.graph v m ∧ m ∈ cfg.targets := by
  unfold score_for_cmp_core score_for_cmp_inp_core at h
  cases hg : get_cmp_from_bb cfg v with
  | some c =>
      simp only [hg] at h
      by_cases hc : c ∈ cfg.targets
      · exact ⟨v, Relation.ReflTransGen.refl, hM v c hg hc⟩
      · rw [if_neg hc] at h
        exact aggregate_reaches cfg v hW h
  | none =>
      simp only [hg] at h
      exact aggregate_reaches cfg v hW h

theorem weightsSound_addEdge (cfg : ControlFlowGraph) (p v : BbId) (sc : Score)
    (hW : WeightsSound cfg)
    (hsc : sc ≠ UNDEF_SCORE → ∃ m, Reaches cfg.graph v m ∧ m ∈ cfg.targets) :
    WeightsSound { cfg with graph := cfg.graph.addEdge p v sc } := by
  intro a b w hw hne
  have hw2 : (cfg.graph.addEdge p v sc).edgeWeight a b = some w := hw
  rw [edgeWeight_addEdge] at hw2
  by_cases hab : ((a, b) : Edge) = (p, v)
  · rw [Prod.mk.injEq] at hab
    obtain ⟨rfl, rfl⟩ := hab
    rw [if_pos rfl] at hw2
    have hscw : sc = w := by injection hw2
    obtain ⟨m, hr, hm⟩ := hsc (by rw [hscw]; exact hne)
    exact ⟨m, reaches_addEdge_mono _ _ _ _ _ _ hr, hm⟩
  · rw [if_neg hab] at hw2
    obtain ⟨m, hr, hm⟩ := hW a b w hw2 hne
    exact ⟨m, reaches_addEdge_mono _ _ _ _ _ _ hr, hm⟩

theorem weightsSound_foldl (cfg : ControlFlowGraph) (v : BbId) (sc : Score)
    (ps : List BbId) :
    ∀ (g : DiGraphMap),
      WeightsSound { cfg with graph := g } →
      (sc ≠ UNDEF_SCORE → ∃ m, Reaches g v m ∧ m ∈ cfg.targets) →
      WeightsSound
        { cfg with graph := ps.foldl (fun g p => g.addEdge p v sc) g } := by
  induction ps with
  | nil =>
      intro g hW _
      exact hW
  | cons p rest ih =>
      intro g hW hsc
      simp only [List.foldl_cons]
      refine ih _ ?_ ?_
      · exact weightsSound_addEdge { cfg with graph := g } p v sc hW hsc
      · intro hne
        obtain ⟨m, hr, hm⟩ := hsc hne
        exact ⟨m, reaches_addEdge_mono _ _ _ _ _ _ hr, hm⟩

theorem weightsSound_propagateLoop (fuel : Nat) :
    ∀ (cfg : ControlFlowGraph) (q d a : List BbId),
      WeightsSound cfg → MappingCompat cfg →
      WeightsSound (propagateLoop fuel cfg q d a).1 := by
  induction fuel with
  | zero =>
      intro cfg q d a hW _
      exact hW
  | succ n ih =>
      intro cfg q d a hW hM
      cases q with
      | nil => exact hW
      | cons v rest =>
          simp only [propagateLoop]
          refine ih _ _ _ _ ?_ ?_
          · refine weightsSound_foldl cfg v (score_for_cmp_core cfg v) _
              cfg.graph ?_ ?_
            · exact hW
            · intro hne
              exact score_reaches cfg v hW hM hne
          · exact hM

theorem mappingCompat_of_fields (cfg cfg2 : ControlFlowGraph)
    (ht : cfg2.targets = cfg.targets) (hi : cfg2.id_mapping = cfg.id_mapping)
    (hM : MappingCompat cfg) : MappingCompat cfg2 := by
  intro bb c hg hc
  rw [ht] at hc ⊢
  refine hM bb c ?_ hc
  unfold get_cmp_from_bb at hg ⊢
  rw [hi] at hg
  exact hg

theorem weightsSound_handle_new_edge (cfg : ControlFlowGraph) (e : Edge)
    (hW : WeightsSound cfg) (hM : MappingCompat cfg) :
    WeightsSound (handle_new_edge cfg e) := by
  have hW1 : WeightsSound
      { cfg with
        graph := cfg.graph.addEdge e.1 e.2 (score_for_cmp_core cfg e.2) } :=
    weightsSound_addEdge cfg e.1 e.2 _ hW
      (fun hne => score_reaches cfg e.2 hW hM hne)
  simp only [handle_new_edge]
  split
  · exact hW1
  · refine weightsSound_propagateLoop _ _ _ _ _ ?_ ?_
    · refine weightsSound_addEdge _ e.1 e.2 _ hW1 ?_
      intro hne
      obtain ⟨m, hr, hm⟩ := score_reaches cfg e.2 hW hM hne
      exact ⟨m, reaches_addEdge_mono _ _ _ _ _ _ hr, hm⟩
    · exact hM

theorem weightsSound_applyOp (cfg : ControlFlowGraph) (op : Op)
    (hnr : ∀ c, op ≠ Op.removeTargetOp c)
    (hW : WeightsSound cfg) (hM : MappingCompat cfg) :
    WeightsSound (applyOp cfg op) ∧ MappingCompat (applyOp cfg op) := by
  cases op with
  | addEdgeOp e =>
      constructor
      · exact weightsSound_handle_new_edge cfg e hW hM
      · exact mappingCompat_of_fields cfg _ (handle_new_edge_fields cfg e).1
          (handle_new_edge_fields cfg e).2.1 hM
  | removeTargetOp c => exact absurd rfl (hnr c)
  | setEdgeIndirectOp e cs => exact ⟨hW, hM⟩
  | setMagicBytesOp e buf offs =>
      show WeightsSound ((set_magic_bytes cfg e buf offs).getD cfg) ∧
        MappingCompat ((set_magic_bytes cfg e buf offs).getD cfg)
      unfold set_magic_bytes
      split
      · exact ⟨hW, hM⟩
      · exact ⟨hW, hM⟩

theorem weightsSound_applyOps (cfg : ControlFlowGraph) (ops : List Op)
    (hnr : ∀ op ∈ ops, ∀ c, op ≠ Op.removeTargetOp c)
    (hW : WeightsSound cfg) (hM : MappingCompat cfg) :
    WeightsSound (applyOps cfg ops) ∧ MappingCompat (applyOps cfg ops) := by
  induction ops generalizing cfg with
  | nil => exact ⟨hW, hM⟩
  | cons op rest ih =>
      simp only [applyOps, List.foldl_cons]
      obtain ⟨hW2, hM2⟩ := weightsSound_applyOp cfg op
        (hnr op (List.mem_cons_self _ _)) hW hM
      exact ih _ (fun op2 hop2 => hnr op2 (List.mem_cons_of_mem _ hop2)) hW2 hM2

/-- C7 (amended): the claimed implication holds for every state reached
from a target-compatible configuration with a sound (e.g. empty) cache by
a history of runtime events that contains no remove_target call.  The
unconditional claim fails (see the counterexample): remove_target leaves
stale defined cached weights behind, and score_for_cmp then returns a
defined score for nodes with no path to any active target. -/
theorem claim_C7_score_implies_path
    (cfg0 : ControlFlowGraph) (ops : List Op) (n : BbId)
    (hnr : ∀ op ∈ ops, ∀ c, op ≠ Op.removeTargetOp c)
    (hW : WeightsSound cfg0) (hM : MappingCompat cfg0)
    (h : score_for_cmp (applyOps cfg0 ops) n ≠ UNDEF_SCORE) :
    has_path_to_target (applyOps cfg0 ops) n = true := by
  obtain ⟨hW2, hM2⟩ := weightsSound_applyOps cfg0 ops hnr hW hM
  obtain ⟨m, hr, hm⟩ := score_reaches _ n hW2 hM2 h
  exact has_path_of_reaches _ n m hr hm

/-- C7 witness: one add_edge toward the mapped target 100 gives node 1 a
defined score, and the theorem yields a positive reachability answer. -/
theorem claim_C7_witness :
    score_for_cmp (applyOps (test_new [100] [(100, 100)])
      [Op.addEdgeOp (1, 100)]) 1 ≠ UNDEF_SCORE ∧
    has_path_to_target (applyOps (test_new [100] [(100, 100)])
      [Op.addEdgeOp (1, 100)]) 1 = true := by
  refine ⟨by decide, ?_⟩
  refine claim_C7_score_implies_path (test_new [100] [(100, 100)])
    [Op.addEdgeOp (1, 100)] 1 ?_ ?_ ?_ (by decide)
  · intro op hop c
    simp only [List.mem_singleton] at hop
    subst hop
    simp
  · intro a b w hw _
    exfalso
    have : alistLookup ([] : List (Edge × Score)) (a, b) = none := rfl
    rw [show (test_new [100] [(100, 100)]).graph.edgeWeight a b =
      alistLookup ([] : List (Edge × Score)) (a, b) from rfl, this] at hw
    exact Option.noConfusion hw
  · intro bb c h1 _
    by_cases hb : bb = 100
    · subst hb
      decide
    · exfalso
      have hne : ¬ ((100 : Nat) = bb) := fun hh => hb hh.symm
      have h2 : get_cmp_from_bb (test_new [100] [(100, 100)]) bb =
          alistLookup [((100 : Nat), (100 : Nat))] bb := by
        unfold get_cmp_from_bb
        rw [if_pos (show (test_new [100] [(100, 100)]).id_mapping ≠ []
          from by decide)]
        rfl
      rw [h2] at h1
      unfold alistLookup at h1
      rw [if_neg hne] at h1
      exact Option.noConfusion h1

end Parmesan
